import Mathlib

/-!
Verification of the TinnyGrep repository (src/src/lib.rs, src/src/main.rs).

Strings are embedded as `List Char`. Rust `str::lines` is embedded by
`lines` below, following the standard-library semantics actually used by the
source: split inclusively at `'\n'`, then strip a trailing `'\n'` from each
piece and, when that `'\n'` was stripped, also one trailing `'\r'`.
Rust `str::contains` is embedded by `containsSub` (naive substring scan,
extensionally equal to the library routine). Rust `str::to_lowercase` is
embedded by `toLowercase`, which reproduces the library's structure on the
fragment of characters this development manipulates: every character other
than the capital sigma is lowercased independently by the character map
`toLowerChar` (ASCII and Greek letters; characters outside the fragment
pass through), while the capital sigma is lowercased context-sensitively
by the Final_Sigma rule, exactly as the library does: it becomes the final
form when the preceding characters (skipping case-ignorable ones) end in a
cased character and the following characters (skipping case-ignorable
ones) do not start with one, and the medial form otherwise. File reading
is abstracted by a `FileSystem` oracle passed to `run`.
-/

/-- Embeds the context-free character lowercasing of Rust `to_lowercase`
on the fragment of characters this development manipulates: an uppercase
ASCII or Greek letter maps to its lowercase form (the capital sigma to the
medial small sigma; the final form is chosen context-sensitively by
`toLowercase`, never here), every other character is unchanged. -/
def toLowerChar : Char → Char
  | 'A' => 'a'
  | 'B' => 'b'
  | 'C' => 'c'
  | 'D' => 'd'
  | 'E' => 'e'
  | 'F' => 'f'
  | 'G' => 'g'
  | 'H' => 'h'
  | 'I' => 'i'
  | 'J' => 'j'
  | 'K' => 'k'
  | 'L' => 'l'
  | 'M' => 'm'
  | 'N' => 'n'
  | 'O' => 'o'
  | 'P' => 'p'
  | 'Q' => 'q'
  | 'R' => 'r'
  | 'S' => 's'
  | 'T' => 't'
  | 'U' => 'u'
  | 'V' => 'v'
  | 'W' => 'w'
  | 'X' => 'x'
  | 'Y' => 'y'
  | 'Z' => 'z'
  | 'Α' => 'α'
  | 'Β' => 'β'
  | 'Γ' => 'γ'
  | 'Δ' => 'δ'
  | 'Ε' => 'ε'
  | 'Ζ' => 'ζ'
  | 'Η' => 'η'
  | 'Θ' => 'θ'
  | 'Ι' => 'ι'
  | 'Κ' => 'κ'
  | 'Λ' => 'λ'
  | 'Μ' => 'μ'
  | 'Ν' => 'ν'
  | 'Ξ' => 'ξ'
  | 'Ο' => 'ο'
  | 'Π' => 'π'
  | 'Ρ' => 'ρ'
  | 'Σ' => 'σ'
  | 'Τ' => 'τ'
  | 'Υ' => 'υ'
  | 'Φ' => 'φ'
  | 'Χ' => 'χ'
  | 'Ψ' => 'ψ'
  | 'Ω' => 'ω'
  | c => c

/-- Embeds the Unicode Cased property on the modeled fragment: ASCII
letters and Greek letters (the final small sigma included) are cased. -/
def isCased (c : Char) : Bool :=
  decide (('A' ≤ c ∧ c ≤ 'Z') ∨ ('a' ≤ c ∧ c ≤ 'z') ∨
    ('Α' ≤ c ∧ c ≤ 'Ω') ∨ ('α' ≤ c ∧ c ≤ 'ω'))

/-- Embeds the Unicode Case_Ignorable property on the modeled fragment:
of the characters this development manipulates only the apostrophe
(code 39) is case-ignorable. -/
def isCaseIgnorable (c : Char) : Bool := c.toNat = 39

/-- Embeds the helper of Rust `str::to_lowercase` that decides the
Final_Sigma condition in one direction: skip case-ignorable characters,
then ask whether a cased character follows. -/
def caseIgnorableThenCased (l : List Char) : Bool :=
  match l.dropWhile isCaseIgnorable with
  | [] => false
  | c :: _ => isCased c

/-- Worker of `toLowercase`: `prev` holds the characters already passed,
nearest first, mirroring the reversed prefix iterator of the library
routine. A capital sigma at a word-final position (a cased character
before it, none after, case-ignorable characters skipped) becomes the
final small sigma, any other capital sigma the medial one; every other
character is lowercased by `toLowerChar`. -/
def toLowercaseAux : List Char → List Char → List Char
  | _, [] => []
  | prev, c :: rest =>
    (if c = 'Σ' then
      if caseIgnorableThenCased prev && !(caseIgnorableThenCased rest) then ['ς'] else ['σ']
    else [toLowerChar c]) ++ toLowercaseAux (c :: prev) rest

/-- Embeds Rust `str::to_lowercase`, Final_Sigma rule included. -/
def toLowercase (s : List Char) : List Char := toLowercaseAux [] s

/-- Helper for `containsSub`: does `needle` occur at the very start of
`hay`? Embeds the prefix test of a naive substring scan. -/
def startsWithList : List Char → List Char → Bool
  | [], _ => true
  | _ :: _, [] => false
  | c :: cs, d :: ds => c == d && startsWithList cs ds

/-- Embeds Rust `str::contains(&str)`: does `needle` occur contiguously
anywhere in `hay`? Naive scan over all start positions. -/
def containsSub (needle : List Char) : List Char → Bool
  | [] => needle.isEmpty
  | d :: ds => startsWithList needle (d :: ds) || containsSub needle ds

/-- Embeds Rust `str::split_inclusive('\n')` as used internally by
`str::lines`: cut the text after every newline, keeping the newline at the
end of its piece; the empty text yields no pieces. -/
def splitInclusiveNl : List Char → List (List Char)
  | [] => []
  | c :: cs =>
    if c = '\n' then ['\n'] :: splitInclusiveNl cs
    else
      match splitInclusiveNl cs with
      | [] => [[c]]
      | p :: ps => (c :: p) :: ps

/-- Embeds Rust `str::strip_suffix(char)`: `some` of the text without its
last character when that character is `c`, otherwise `none`. -/
def stripSuffixChar (c : Char) (l : List Char) : Option (List Char) :=
  if l.getLast? = some c then some l.dropLast else none

/-- Embeds the per-piece map of Rust `str::lines`: strip one trailing
newline, and when a newline was stripped also one trailing carriage
return. A carriage return not followed by a newline is kept. -/
def linesMap (l : List Char) : List Char :=
  match stripSuffixChar '\n' l with
  | none => l
  | some l1 =>
    match stripSuffixChar '\r' l1 with
    | none => l1
    | some l2 => l2

/-- Embeds Rust `str::lines` as called by `search` and
`search_case_insensitive` in src/src/lib.rs. -/
def lines (s : List Char) : List (List Char) :=
  (splitInclusiveNl s).map linesMap

/-- Embeds `search` of src/src/lib.rs (lines 154-159): keep, in order, the
lines of `contents` that contain `query`. -/
def search (query contents : List Char) : List (List Char) :=
  (lines contents).filter (fun line => containsSub query line)

/-- Embeds `search_case_insensitive` of src/src/lib.rs (lines 185-191):
lowercase the query once, keep the lines whose lowercased text contains it;
the original line text is what is returned. -/
def search_case_insensitive (query contents : List Char) : List (List Char) :=
  let query := toLowercase query
  (lines contents).filter (fun line => containsSub query (toLowercase line))

/-- Embeds `Config` of src/src/lib.rs (lines 5-9). -/
structure Config where
  query : List Char
  file_path : List Char
  ignore_case : Bool

/-- The error text of the missing-query branch of `Config::build`; the
character 39 is the apostrophe of the source text. -/
def errMissingQuery : List Char :=
  "didn".data ++ [Char.ofNat 39] ++ "t get query string".data

/-- The error text of the missing-file-path branch of `Config::build`. -/
def errMissingFilePath : List Char := "no file path passed".data

/-- Embeds `Config::build` of src/src/lib.rs (lines 62-84): skip the
program name, take the next argument as query (else error), the next as
file path (else error); `ignore_case` is whether the environment variable
NO_IGNORE_CASE is set, passed here as the `env` flag. -/
def Config.build (args : List (List Char)) (env : Bool) : Except (List Char) Config :=
  match args.tail with
  | [] => .error errMissingQuery
  | query :: rest =>
    match rest with
    | [] => .error errMissingFilePath
    | file_path :: _ => .ok { query := query, file_path := file_path, ignore_case := env }

/-- A model of the file system seen through `fs::read_to_string`: a path
either reads to contents (`ok`) or fails with an I/O error text
(`error`). -/
def FileSystem : Type := List Char → Except (List Char) (List Char)

/-- Embeds `run` of src/src/lib.rs (lines 117-131): read the file (an
error propagates immediately, before any search); then, exactly as the
source is written, call `search` when `ignore_case` is TRUE and
`search_case_insensitive` when it is FALSE; the returned list is the
sequence of lines the loop prints. -/
def run (fs : FileSystem) (config : Config) : Except (List Char) (List (List Char)) :=
  match fs config.file_path with
  | .error e => .error e
  | .ok contents =>
    .ok (if config.ignore_case then search config.query contents
         else search_case_insensitive config.query contents)

namespace Main

/-- Embeds `Config` of src/src/main.rs (lines 6-9). -/
structure Config where
  query : List Char
  file_path : List Char

/-- Outcome of the binary-side `Config::build`: a returned `Ok`, a
returned `Err` (the `Result` error branch of its signature), or a panic
with its message. -/
inductive BuildOutcome where
  | ok (c : Config)
  | err (e : List Char)
  | panicked (msg : List Char)

/-- The panic text of src/src/main.rs line 13. -/
def panicMsg : List Char :=
  "please, enter just 2 arguments, the word you want find and the file path".data

/-- Embeds `Config::build` of src/src/main.rs (lines 11-19): when the
argument vector has length exactly 3 it returns `Ok` of the second and
third entries; any other length panics (the `Err` branch of its signature
is never produced). -/
def Config.build (args : List (List Char)) : BuildOutcome :=
  match args with
  | [_, query, file_path] => .ok { query := query, file_path := file_path }
  | _ => .panicked panicMsg

/-- Embeds `run` of src/src/main.rs (lines 22-28): read the file (an error
propagates); on success print the contents (returned here) and succeed.
No search is performed by this function. -/
def run (fs : FileSystem) (c : Config) : Except (List Char) (List Char) :=
  match fs c.file_path with
  | .error e => .error e
  | .ok contents => .ok contents

/-- Embeds the process exit status of `main` of src/src/main.rs (lines
30-43): a panic in `Config::build` aborts with the Rust panic status 101;
a build error triggers `process::exit(1)`; a `run` error triggers
`process::exit(1)`; otherwise the process ends with status 0. -/
def mainExitCode (fs : FileSystem) (args : List (List Char)) : Nat :=
  match Config.build args with
  | .panicked _ => 101
  | .err _ => 1
  | .ok c =>
    match run fs c with
    | .error _ => 1
    | .ok _ => 0

end Main

theorem startsWithList_iff (n : List Char) : ∀ h : List Char, startsWithList n h = true ↔ n <+: h := by
  induction n with
  | nil => intro h; simp [startsWithList]
  | cons c cs ih =>
    intro h
    cases h with
    | nil => simp [startsWithList]
    | cons d ds => simp [startsWithList, List.cons_prefix_cons, ih]

theorem containsSub_iff (n h : List Char) : containsSub n h = true ↔ n <:+: h := by
  induction h with
  | nil => simp [containsSub, List.isEmpty_iff]
  | cons d ds ih => simp [containsSub, startsWithList_iff, ih, List.infix_cons_iff]

theorem containsSub_nil (l : List Char) : containsSub [] l = true := by
  cases l <;> simp [containsSub, startsWithList]

theorem splitInclusiveNl_cons_ne (c : Char) (cs : List Char) (hc : c ≠ '\n') :
    splitInclusiveNl (c :: cs) =
      match splitInclusiveNl cs with
      | [] => [[c]]
      | p :: ps => (c :: p) :: ps := by
  simp [splitInclusiveNl, if_neg hc]

theorem splitInclusiveNl_append_nl (a : List Char) :
    ∀ b : List Char, '\n' ∉ a →
    splitInclusiveNl (a ++ '\n' :: b) = (a ++ ['\n']) :: splitInclusiveNl b := by
  induction a with
  | nil => intro b _; simp [splitInclusiveNl]
  | cons c cs ih =>
    intro b hmem
    have hc : c ≠ '\n' := fun h => hmem (by simp [h])
    have hcs : '\n' ∉ cs := fun h => hmem (by simp [h])
    rw [List.cons_append, splitInclusiveNl_cons_ne c _ hc, ih b hcs]
    rfl

theorem splitInclusiveNl_no_nl (a : List Char) (hmem : '\n' ∉ a) (hne : a ≠ []) :
    splitInclusiveNl a = [a] := by
  induction a with
  | nil => exact absurd rfl hne
  | cons c cs ih =>
    have hc : c ≠ '\n' := fun h => hmem (by simp [h])
    have hcs : '\n' ∉ cs := fun h => hmem (by simp [h])
    cases cs with
    | nil => simp [splitInclusiveNl, hc]
    | cons d ds => rw [splitInclusiveNl_cons_ne c _ hc, ih hcs (by simp)]

theorem splitInclusiveNl_cons_nl (cs : List Char) :
    splitInclusiveNl ('\n' :: cs) = ['\n'] :: splitInclusiveNl cs := by
  simp [splitInclusiveNl]

theorem mem_splitInclusiveNl (d : List Char) :
    ∀ p ∈ splitInclusiveNl d, p ≠ [] ∧ '\n' ∉ p.dropLast := by
  induction d with
  | nil => intro p hp; simp [splitInclusiveNl] at hp
  | cons c cs ih =>
    intro p hp
    by_cases hc : c = '\n'
    · subst hc
      rw [splitInclusiveNl_cons_nl] at hp
      rcases List.mem_cons.mp hp with rfl | hp
      · exact ⟨by simp, by simp⟩
      · exact ih p hp
    · rw [splitInclusiveNl_cons_ne c cs hc] at hp
      generalize hq : splitInclusiveNl cs = r at hp
      cases r with
      | nil =>
        simp only [List.mem_singleton] at hp
        subst hp
        exact ⟨by simp, by simp⟩
      | cons q qs =>
        simp only [List.mem_cons] at hp
        rcases hp with rfl | hp
        · have hq' := ih q (by rw [hq]; exact List.mem_cons_self q qs)
          rcases q with _ | ⟨q0, q1⟩
          · exact absurd rfl hq'.1
          · refine ⟨by simp, ?_⟩
            rw [List.dropLast_cons₂]
            intro hmem
            rcases List.mem_cons.mp hmem with h | h
            · exact hc h.symm
            · exact hq'.2 h
        · exact ih p (by rw [hq]; exact List.mem_cons_of_mem q hp)

theorem linesMap_no_nl (a : List Char) (hmem : '\n' ∉ a) : linesMap a = a := by
  have h : stripSuffixChar '\n' a = none := by
    unfold stripSuffixChar
    rw [if_neg]
    intro hsome
    exact hmem (List.mem_of_getLast?_eq_some hsome)
  simp [linesMap, h]

theorem linesMap_concat_cr_nl (a : List Char) :
    linesMap ((a ++ ['\r']) ++ ['\n']) = a := by
  simp [linesMap, stripSuffixChar, List.getLast?_concat, List.dropLast_concat]

theorem linesMap_concat_c_nl (a : List Char) (c : Char) (hr : c ≠ '\r') :
    linesMap ((a ++ [c]) ++ ['\n']) = a ++ [c] := by
  simp [linesMap, stripSuffixChar, List.getLast?_concat, List.dropLast_concat, hr]

theorem nl_not_mem_linesMap (p : List Char) (hne : p ≠ []) (hd : '\n' ∉ p.dropLast) :
    '\n' ∉ linesMap p := by
  rcases List.eq_nil_or_concat p with rfl | ⟨l1, a, rfl⟩
  · exact absurd rfl hne
  · rw [List.concat_eq_append] at hd ⊢
    rw [List.dropLast_concat] at hd
    by_cases ha : a = '\n'
    · subst ha
      rcases List.eq_nil_or_concat l1 with rfl | ⟨l2, b, rfl⟩
      · simp [linesMap, stripSuffixChar]
      · rw [List.concat_eq_append] at hd ⊢
        by_cases hb : b = '\r'
        · subst hb
          rw [linesMap_concat_cr_nl]
          intro hmem
          exact hd (by simp [hmem])
        · rw [linesMap_concat_c_nl _ _ hb]
          exact hd
    · rw [linesMap_no_nl]
      · intro hmem
        rcases List.mem_append.mp hmem with h | h
        · exact hd (by simp [h])
        · exact ha (List.mem_singleton.mp h).symm
      · intro hmem
        rcases List.mem_append.mp hmem with h | h
        · exact hd (by simp [h])
        · exact ha (List.mem_singleton.mp h).symm

theorem nl_not_mem_lines (d l : List Char) (h : l ∈ lines d) : '\n' ∉ l := by
  obtain ⟨p, hp, rfl⟩ := List.mem_map.mp h
  have hs := mem_splitInclusiveNl d p hp
  exact nl_not_mem_linesMap p hs.1 hs.2

theorem lines_append_cr_nl (a b : List Char) (ha : '\n' ∉ a) :
    lines (a ++ '\r' :: '\n' :: b) = a :: lines b := by
  have h1 : '\n' ∉ a ++ ['\r'] := by
    intro hmem
    rcases List.mem_append.mp hmem with h | h
    · exact ha h
    · exact absurd (List.mem_singleton.mp h) (by decide)
  have h2 : a ++ '\r' :: '\n' :: b = (a ++ ['\r']) ++ '\n' :: b := by
    simp
  rw [lines, h2, splitInclusiveNl_append_nl _ _ h1, List.map_cons,
    linesMap_concat_cr_nl]
  rfl

theorem lines_append_c_nl (a : List Char) (c : Char) (b : List Char)
    (ha : '\n' ∉ a) (hc : c ≠ '\n') (hr : c ≠ '\r') :
    lines ((a ++ [c]) ++ '\n' :: b) = (a ++ [c]) :: lines b := by
  have h1 : '\n' ∉ a ++ [c] := by
    intro hmem
    rcases List.mem_append.mp hmem with h | h
    · exact ha h
    · exact hc (List.mem_singleton.mp h).symm
  rw [lines, splitInclusiveNl_append_nl _ _ h1, List.map_cons,
    linesMap_concat_c_nl _ _ hr]
  rfl

theorem lines_no_nl (a : List Char) (ha : '\n' ∉ a) (hne : a ≠ []) :
    lines a = [a] := by
  rw [lines, splitInclusiveNl_no_nl a ha hne, List.map_singleton,
    linesMap_no_nl a ha]

theorem toLowerChar_nl : toLowerChar '\n' = '\n' := by decide

theorem eq_nl_of_toLowerChar (c : Char) (h : toLowerChar c = '\n') : c = '\n' := by
  unfold toLowerChar at h
  split at h <;> first | exact h | exact absurd h (by decide)

theorem map_toLowerChar_infix_mono {q l : List Char} (h : q <:+: l) :
    q.map toLowerChar <:+: l.map toLowerChar := by
  obtain ⟨s, t, rfl⟩ := h
  exact ⟨s.map toLowerChar, t.map toLowerChar, by simp⟩

theorem toLowercaseAux_no_sigma (rest : List Char) :
    ∀ prev : List Char, 'Σ' ∉ rest → toLowercaseAux prev rest = rest.map toLowerChar := by
  induction rest with
  | nil => intro prev _; rfl
  | cons c cs ih =>
    intro prev h
    have hc : c ≠ 'Σ' := fun hh => h (by simp [hh])
    have hcs : 'Σ' ∉ cs := fun hh => h (by simp [hh])
    simp only [toLowercaseAux, if_neg hc, ih (c :: prev) hcs, List.map_cons,
      List.singleton_append]

theorem toLowercase_no_sigma {s : List Char} (h : 'Σ' ∉ s) :
    toLowercase s = s.map toLowerChar :=
  toLowercaseAux_no_sigma s [] h

theorem nl_mem_toLowercaseAux (rest : List Char) :
    ∀ prev : List Char, '\n' ∈ rest → '\n' ∈ toLowercaseAux prev rest := by
  induction rest with
  | nil => intro prev h; exact absurd h (List.not_mem_nil _)
  | cons c cs ih =>
    intro prev h
    simp only [toLowercaseAux]
    rcases List.mem_cons.mp h with h1 | h1
    · subst h1
      rw [if_neg (by decide : ('\n' : Char) ≠ 'Σ')]
      exact List.mem_append_left _ (by rw [toLowerChar_nl]; exact List.mem_singleton_self _)
    · exact List.mem_append_right _ (ih (c :: prev) h1)

theorem nl_mem_toLowercase {q : List Char} (h : '\n' ∈ q) : '\n' ∈ toLowercase q :=
  nl_mem_toLowercaseAux q [] h

theorem nl_not_mem_toLowercaseAux (rest : List Char) :
    ∀ prev : List Char, '\n' ∉ rest → '\n' ∉ toLowercaseAux prev rest := by
  induction rest with
  | nil => intro prev _ hmem; exact absurd hmem (List.not_mem_nil _)
  | cons c cs ih =>
    intro prev h hmem
    have hc : c ≠ '\n' := fun hh => h (by simp [hh])
    have hcs : '\n' ∉ cs := fun hh => h (by simp [hh])
    simp only [toLowercaseAux] at hmem
    rcases List.mem_append.mp hmem with h1 | h1
    · by_cases hs : c = 'Σ'
      · rw [if_pos hs] at h1
        split at h1 <;> exact absurd (List.mem_singleton.mp h1) (by decide)
      · rw [if_neg hs] at h1
        exact hc (eq_nl_of_toLowerChar c (List.mem_singleton.mp h1).symm)
    · exact ih (c :: prev) hcs h1

theorem nl_not_mem_toLowercase {l : List Char} (h : '\n' ∉ l) : '\n' ∉ toLowercase l :=
  nl_not_mem_toLowercaseAux l [] h

theorem stripSuffixChar_subset {c : Char} {l l1 : List Char}
    (h : stripSuffixChar c l = some l1) : l1 ⊆ l := by
  unfold stripSuffixChar at h
  split at h
  · injection h with h1
    subst h1
    exact (List.dropLast_sublist l).subset
  · exact Option.noConfusion h

theorem linesMap_subset (p : List Char) : linesMap p ⊆ p := by
  unfold linesMap
  generalize h1 : stripSuffixChar '\n' p = o1
  cases o1 with
  | none => exact fun x hx => hx
  | some l1 =>
    have hl1 := stripSuffixChar_subset h1
    show (match stripSuffixChar '\r' l1 with | none => l1 | some l2 => l2) ⊆ p
    generalize h2 : stripSuffixChar '\r' l1 = o2
    cases o2 with
    | none => exact hl1
    | some l2 => exact (stripSuffixChar_subset h2).trans hl1

theorem mem_splitInclusiveNl_subset (d : List Char) :
    ∀ p ∈ splitInclusiveNl d, p ⊆ d := by
  induction d with
  | nil => intro p hp; simp [splitInclusiveNl] at hp
  | cons c cs ih =>
    intro p hp
    by_cases hc : c = '\n'
    · subst hc
      rw [splitInclusiveNl_cons_nl] at hp
      rcases List.mem_cons.mp hp with rfl | hp
      · intro x hx
        rw [List.mem_singleton.mp hx]
        exact List.mem_cons_self _ _
      · exact (ih p hp).trans (List.subset_cons_self _ _)
    · rw [splitInclusiveNl_cons_ne c cs hc] at hp
      generalize hq : splitInclusiveNl cs = r at hp
      cases r with
      | nil =>
        simp only [List.mem_singleton] at hp
        subst hp
        intro x hx
        rw [List.mem_singleton.mp hx]
        exact List.mem_cons_self _ _
      | cons q qs =>
        simp only [List.mem_cons] at hp
        rcases hp with rfl | hp
        · have hsub : q ⊆ cs := ih q (by rw [hq]; exact List.mem_cons_self q qs)
          intro x hx
          rcases List.mem_cons.mp hx with rfl | hx
          · exact List.mem_cons_self _ _
          · exact List.mem_cons_of_mem _ (hsub hx)
        · exact (ih p (by rw [hq]; exact List.mem_cons_of_mem q hp)).trans
            (List.subset_cons_self _ _)

theorem mem_lines_subset {d l : List Char} (h : l ∈ lines d) : l ⊆ d := by
  obtain ⟨p, hp, rfl⟩ := List.mem_map.mp h
  exact (linesMap_subset p).trans (mem_splitInclusiveNl_subset d p hp)

/-- The document of the `one_result` test of src/src/lib.rs. -/
def poem1 : List Char := "Rust:\nsafe, fast, productive.\nPick three.\nDuck tape.".data

/-- The document of the `case_insensitive` test of src/src/lib.rs. -/
def poem2 : List Char := "Rust:\nsafe, fast, productive.\nPick Three.\nTrust me.".data

/-- A file system in which only `poem.txt` is readable, holding `poem2`. -/
def fsPoem : FileSystem := fun p =>
  if p = "poem.txt".data then .ok poem2
  else .error "No such file or directory (os error 2)".data

/-- A file system in which no path is readable. -/
def fsNone : FileSystem := fun _ =>
  .error "No such file or directory (os error 2)".data

/-- C1: the claim says `run` prints the `search_case_insensitive` result
when `ignore_case` is true and the `search` result when it is false. The
code does the opposite: with `ignore_case := true` and the document of the
case-insensitive test, `run` prints nothing, while
`search_case_insensitive` selects two lines, which `run` only prints when
`ignore_case := false`. This contradicts the doc comment of
`Config::build` (NO_IGNORE_CASE enables case-insensitive search) and the
intended mapping, so it is a bug of the code, not of the claim. -/
theorem claim_C1_run_dispatch_swapped :
    run fsPoem { query := "rUsT".data, file_path := "poem.txt".data, ignore_case := true }
      = .ok [] ∧
    search_case_insensitive "rUsT".data poem2 = ["Rust:".data, "Trust me.".data] ∧
    run fsPoem { query := "rUsT".data, file_path := "poem.txt".data, ignore_case := false }
      = .ok ["Rust:".data, "Trust me.".data] :=
  ⟨rfl, rfl, rfl⟩

/-- C2: every line returned by `search` contains the query as a contiguous
substring, every line of the document containing the query is returned,
and the result preserves original document order (it is a sublist of the
document lines). -/
theorem claim_C2_search_sound_complete (q d : List Char) :
    (∀ l ∈ search q d, q <:+: l) ∧
    (∀ l ∈ lines d, q <:+: l → l ∈ search q d) ∧
    List.Sublist (search q d) (lines d) := by
  refine ⟨?_, ?_, List.filter_sublist _⟩
  · intro l hl
    exact (containsSub_iff q l).mp (List.mem_filter.mp hl).2
  · intro l hl hq
    exact List.mem_filter.mpr ⟨hl, (containsSub_iff q l).mpr hq⟩

/-- Witness for C2 at the concrete scenario of the `one_result` test. -/
theorem claim_C2_witness :
    "safe, fast, productive.".data ∈ search "duct".data poem1 :=
  (claim_C2_search_sound_complete "duct".data poem1).2.1
    "safe, fast, productive.".data (by decide)
    ((containsSub_iff "duct".data "safe, fast, productive.".data).mp (by decide))

/-- C4 counterexample: the claim says the case-insensitive result set is
always a superset of the case-sensitive one. The Final_Sigma rule of
`to_lowercase` refutes it: the query consisting of the capital sigma
matches the document consisting of capital alpha then capital sigma
case-sensitively, but its lowercase is the medial small sigma while the
document line lowercases to alpha followed by the final small sigma, so
the case-insensitive search returns nothing. -/
theorem claim_C4_counterexample :
    search "Σ".data "ΑΣ".data = ["ΑΣ".data] ∧
    search_case_insensitive "Σ".data "ΑΣ".data = [] ∧
    toLowercase "Σ".data = "σ".data ∧
    toLowercase "ΑΣ".data = "ας".data :=
  ⟨rfl, rfl, rfl, rfl⟩

/-- C4 as amended: when the capital sigma occurs in neither the query nor
the document (so the context-sensitive Final_Sigma rule never fires and
lowercasing is the plain character map), whatever the case-sensitive
`search` returns is also returned by `search_case_insensitive` for the
same query and document. -/
theorem claim_C4_superset_no_sigma (q d l : List Char)
    (hq : 'Σ' ∉ q) (hd : 'Σ' ∉ d) (h : l ∈ search q d) :
    l ∈ search_case_insensitive q d := by
  have hm := List.mem_filter.mp h
  have hl : 'Σ' ∉ l := fun hx => hd (mem_lines_subset hm.1 hx)
  refine List.mem_filter.mpr ⟨hm.1, ?_⟩
  show containsSub (toLowercase q) (toLowercase l) = true
  rw [toLowercase_no_sigma hq, toLowercase_no_sigma hl]
  exact (containsSub_iff _ _).mpr (map_toLowerChar_infix_mono ((containsSub_iff q l).mp hm.2))

/-- Witness for C4 as amended: a case-sensitively matching sigma-free line
of a sigma-free document also matches case-insensitively. -/
theorem claim_C4_witness : "Rust:".data ∈ search_case_insensitive "Rust".data poem2 :=
  claim_C4_superset_no_sigma "Rust".data poem2 "Rust:".data
    (by decide) (by decide) (by decide)

/-- C5: the empty query selects every line of the document, in order, in
both modes. -/
theorem claim_C5_empty_query (d : List Char) :
    search [] d = lines d ∧ search_case_insensitive [] d = lines d := by
  constructor
  · exact List.filter_eq_self.mpr (fun l _ => containsSub_nil l)
  · exact List.filter_eq_self.mpr (fun l _ => containsSub_nil (toLowercase l))

/-- C9: both search routines are deterministic pure functions of their two
arguments: identical inputs give identical, order-preserving output. -/
theorem claim_C9_deterministic (q1 q2 d1 d2 : List Char) (hq : q1 = q2) (hd : d1 = d2) :
    search q1 d1 = search q2 d2 ∧
    search_case_insensitive q1 d1 = search_case_insensitive q2 d2 := by
  subst hq; subst hd; exact ⟨rfl, rfl⟩

/-- Witness for C9 at a concrete repeated invocation. -/
theorem claim_C9_witness :
    search "a".data "a\nb".data = search "a".data "a\nb".data ∧
    search_case_insensitive "a".data "a\nb".data
      = search_case_insensitive "a".data "a\nb".data :=
  claim_C9_deterministic "a".data "a".data "a\nb".data "a\nb".data rfl rfl

/-- C10: a query containing a newline matches no line in either mode,
because no line produced by the line splitting contains a newline. -/
theorem claim_C10_newline_query (q d : List Char) (h : '\n' ∈ q) :
    search q d = [] ∧ search_case_insensitive q d = [] := by
  constructor
  · refine List.filter_eq_nil_iff.mpr (fun l hl hc => ?_)
    exact nl_not_mem_lines d l hl (((containsSub_iff q l).mp hc).subset h)
  · refine List.filter_eq_nil_iff.mpr (fun l hl hc => ?_)
    have hinf := (containsSub_iff (toLowercase q) (toLowercase l)).mp hc
    exact nl_not_mem_toLowercase (nl_not_mem_lines d l hl)
      (hinf.subset (nl_mem_toLowercase h))

/-- Witness for C10 at a concrete newline-containing query. -/
theorem claim_C10_witness :
    search "a\nb".data "xaybz".data = [] ∧
    search_case_insensitive "a\nb".data "xaybz".data = [] :=
  claim_C10_newline_query "a\nb".data "xaybz".data (by decide)

/-- C3 counterexample: the claim says a carriage return preceding a
newline is kept as part of the line content. It is not: searching the
document consisting of the characters a, carriage return, newline, b with
the empty query (which selects every line) yields the lines a and b; the
line consisting of a followed by a carriage return is not among them,
because the carriage return of a CRLF pair is stripped with the
terminator. -/
theorem claim_C3_counterexample :
    search [] "a\r\nb".data = [['a'], ['b']] ∧
    search_case_insensitive [] "a\r\nb".data = [['a'], ['b']] ∧
    ['a', '\r'] ∉ search [] "a\r\nb".data := by
  refine ⟨rfl, rfl, ?_⟩
  decide

/-- C3 as amended: both searches decompose the document with the line
splitting embedded by `lines`, and that splitting cuts at newlines only,
excludes the newline terminator from each line, strips a carriage return
that immediately precedes a newline together with that newline, keeps a
carriage return not followed by a newline, and lets a trailing newline
produce no extra empty final line. -/
theorem claim_C3_line_splitting :
    (∀ d : List Char, search [] d = lines d ∧ search_case_insensitive [] d = lines d) ∧
    (∀ d : List Char, ∀ l ∈ lines d, '\n' ∉ l) ∧
    (∀ a b : List Char, '\n' ∉ a → lines (a ++ '\r' :: '\n' :: b) = a :: lines b) ∧
    (∀ (a : List Char) (c : Char) (b : List Char), '\n' ∉ a → c ≠ '\n' → c ≠ '\r' →
      lines ((a ++ [c]) ++ '\n' :: b) = (a ++ [c]) :: lines b) ∧
    (∀ a : List Char, '\n' ∉ a → a ≠ [] → lines a = [a]) ∧
    (∀ (a : List Char) (c : Char), '\n' ∉ a → c ≠ '\n' → c ≠ '\r' →
      lines ((a ++ [c]) ++ ['\n']) = lines (a ++ [c])) := by
  refine ⟨claim_C5_empty_query, nl_not_mem_lines, lines_append_cr_nl,
    lines_append_c_nl, lines_no_nl, ?_⟩
  intro a c ha hc hr
  rw [lines_append_c_nl a c [] ha hc hr]
  rw [lines_no_nl (a ++ [c]) ?hmem (by simp)]
  · rfl
  · intro hmem
    rcases List.mem_append.mp hmem with h | h
    · exact ha h
    · exact hc (List.mem_singleton.mp h).symm

/-- Witness for C3 as amended, at concrete documents. -/
theorem claim_C3_witness :
    '\n' ∉ "safe".data ∧
    lines ("ab".data ++ '\r' :: '\n' :: "c".data) = "ab".data :: lines "c".data ∧
    lines (("a".data ++ ['b']) ++ '\n' :: "c".data) = ("a".data ++ ['b']) :: lines "c".data ∧
    lines "a\r".data = ["a\r".data] ∧
    lines (("x".data ++ ['y']) ++ ['\n']) = lines ("x".data ++ ['y']) :=
  ⟨claim_C3_line_splitting.2.1 "safe\nx".data "safe".data (by decide),
   claim_C3_line_splitting.2.2.1 "ab".data "c".data (by decide),
   claim_C3_line_splitting.2.2.2.1 "a".data 'b' "c".data (by decide) (by decide) (by decide),
   claim_C3_line_splitting.2.2.2.2.1 "a\r".data (by decide) (by decide),
   claim_C3_line_splitting.2.2.2.2.2 "x".data 'y' (by decide) (by decide) (by decide)⟩

/-- C6 counterexample: with a single-element argument vector the binary
side Config::build of src/src/main.rs does not return a configuration
error result: it panics (its Err branch is never produced). -/
theorem claim_C6_counterexample :
    Main.Config.build ["tinnygrep".data] = Main.BuildOutcome.panicked Main.panicMsg ∧
    ∀ e : List Char, Main.Config.build ["tinnygrep".data] ≠ Main.BuildOutcome.err e := by
  refine ⟨rfl, ?_⟩
  intro e h
  exact Main.BuildOutcome.noConfusion h

/-- C6 as amended: with fewer than two positional values after the program
name, the library Config::build returns a missing-query or
missing-file-path error rather than a Config, the binary Config::build
panics rather than returning an error result, and in either path the
process exits with a non-zero status before any search runs. -/
theorem claim_C6_short_args (args : List (List Char)) (env : Bool) (fs : FileSystem)
    (h : args.length < 3) :
    (∃ e, Config.build args env = .error e) ∧
    (∃ m, Main.Config.build args = .panicked m) ∧
    Main.mainExitCode fs args ≠ 0 := by
  rcases args with _ | ⟨a, _ | ⟨b, _ | ⟨c, rest⟩⟩⟩
  · exact ⟨⟨errMissingQuery, rfl⟩, ⟨Main.panicMsg, rfl⟩, (by decide : (101 : Nat) ≠ 0)⟩
  · exact ⟨⟨errMissingQuery, rfl⟩, ⟨Main.panicMsg, rfl⟩, (by decide : (101 : Nat) ≠ 0)⟩
  · exact ⟨⟨errMissingFilePath, rfl⟩, ⟨Main.panicMsg, rfl⟩, (by decide : (101 : Nat) ≠ 0)⟩
  · simp at h
    omega

/-- Witness for C6 as amended, at a one-element argument vector. -/
theorem claim_C6_witness :
    (∃ e, Config.build ["tinnygrep".data] true = .error e) ∧
    (∃ m, Main.Config.build ["tinnygrep".data] = .panicked m) ∧
    Main.mainExitCode fsNone ["tinnygrep".data] ≠ 0 :=
  claim_C6_short_args ["tinnygrep".data] true fsNone (by decide)

/-- C7: when the configured file path cannot be read, the library `run`
returns the read error before any search is dispatched and prints no
result line (its success value, the printed lines, is never produced);
the binary `run` likewise fails, and the process exit status of `main`
is the non-zero 1. -/
theorem claim_C7_unreadable_file (fs : FileSystem) (cfg : Config) (mc : Main.Config)
    (e1 e2 : List Char)
    (h1 : fs cfg.file_path = .error e1) (h2 : fs mc.file_path = .error e2) :
    run fs cfg = .error e1 ∧ Main.run fs mc = .error e2 ∧
    ∀ args, Main.Config.build args = .ok mc → Main.mainExitCode fs args = 1 := by
  refine ⟨?_, ?_, ?_⟩
  · unfold run
    rw [h1]
  · unfold Main.run
    rw [h2]
  · intro args hb
    simp [Main.mainExitCode, Main.run, hb, h2]

/-- Witness for C7 on the file system in which no path is readable. -/
theorem claim_C7_witness :
    run fsNone { query := "q".data, file_path := "f.txt".data, ignore_case := false }
      = .error "No such file or directory (os error 2)".data ∧
    Main.mainExitCode fsNone ["tinnygrep".data, "q".data, "f.txt".data] = 1 := by
  have h := claim_C7_unreadable_file fsNone
    { query := "q".data, file_path := "f.txt".data, ignore_case := false }
    { query := "q".data, file_path := "f.txt".data }
    "No such file or directory (os error 2)".data
    "No such file or directory (os error 2)".data rfl rfl
  exact ⟨h.1, h.2.2 ["tinnygrep".data, "q".data, "f.txt".data] rfl⟩

/-- C8: in both modes the result is a sublist of the document lines
(original order, no reordering), and a matching line occurs in the result
exactly as often as it occurs among the document lines (no deduplication,
duplicates preserved). -/
theorem claim_C8_subsequence_multiplicity (q d : List Char) :
    List.Sublist (search q d) (lines d) ∧
    List.Sublist (search_case_insensitive q d) (lines d) ∧
    (∀ l : List Char, containsSub q l = true →
      List.count l (search q d) = List.count l (lines d)) ∧
    (∀ l : List Char, containsSub (toLowercase q) (toLowercase l) = true →
      List.count l (search_case_insensitive q d) = List.count l (lines d)) := by
  refine ⟨List.filter_sublist _, List.filter_sublist _, ?_, ?_⟩
  · intro l h
    exact List.count_filter h
  · intro l h
    exact List.count_filter h

/-- Witness for C8: the matching line of the `one_result` test occurs
once in the result and once among the document lines. -/
theorem claim_C8_witness :
    List.count "safe, fast, productive.".data (search "duct".data poem1)
      = List.count "safe, fast, productive.".data (lines poem1) :=
  (claim_C8_subsequence_multiplicity "duct".data poem1).2.2.1
    "safe, fast, productive.".data (by decide)
